import Mathlib

/-!
Shallow embedding of `src/renewable_excel_autofill.py`.

Python strings are modelled as `List Char` (`Str`). Python dicts are
modelled as association lists with insertion-order semantics
(`dlookup` finds the first binding; `dinsert` overwrites in place or
appends, matching CPython dict assignment).

The regular-expression library `re` is external to the repository; it is
modelled as an `Engine` parameter: a function from pattern and text to a
`SearchOutcome` (compilation error `reError`, no match `noMatch`, or a
match carrying the whole span `group0` and the named-group dictionary
`named`, where a named group that did not participate in the match is
bound to `none`, exactly as in Python's `Match.groupdict()`).
-/

set_option autoImplicit false

namespace RenewableAutofill

abbrev Str := List Char

/-- Coerce a Lean string literal to the `List Char` model of Python strings. -/
def pyStr (s : String) : Str := s.data

/-- Python dict lookup on an association list: first binding wins. -/
def dlookup {κ α : Type} [DecidableEq κ] : List (κ × α) → κ → Option α
  | [], _ => none
  | (k, v) :: rest, key => if k = key then some v else dlookup rest key

/-- Python dict assignment `d[k] = v`: overwrite in place, else append. -/
def dinsert {κ α : Type} [DecidableEq κ] : List (κ × α) → κ → α → List (κ × α)
  | [], k, v => [(k, v)]
  | (k', v') :: rest, k, v =>
    if k' = k then (k', v) :: rest else (k', v') :: dinsert rest k v

/-! ## Text Normalizer (`normalize_space`, line 142-143)

`re.sub(r"[ \t ]+", " ", s.replace("\r", "\n")).strip()`.
-/

/-- The character class `[ \t ]` of the collapsing rule. -/
def isCollapsible (c : Char) : Bool := c == ' ' || c == '\t' || c == ' '

/-- The whitespace set stripped by Python's `str.strip()` (characters for
which `str.isspace()` holds). -/
def pyIsSpace (c : Char) : Bool :=
  c == ' ' || c == '\t' || c == '\n' || c == '\r' || c == '\u000B' || c == '\u000C' ||
  c == '\u001C' || c == '\u001D' || c == '\u001E' || c == '\u001F' || c == '\u0085' ||
  c == ' ' || c == ' ' ||
  (decide (' ' ≤ c) && decide (c ≤ ' ')) ||
  c == ' ' || c == ' ' || c == ' ' || c == ' ' || c == '　'

/-- `s.replace("\r", "\n")`. -/
def pyReplaceCR (l : Str) : Str := l.map (fun c => if c = '\r' then '\n' else c)

/-- `re.sub` of a one-character-class-run pattern: every maximal run of
characters satisfying `p` is replaced by the single character `r`. The
`Bool` argument records whether we are inside a run already replaced. -/
def squeezeRuns (p : Char → Bool) (r : Char) : Bool → Str → Str
  | _, [] => []
  | inRun, c :: cs =>
    if p c then
      if inRun then squeezeRuns p r true cs
      else r :: squeezeRuns p r true cs
    else c :: squeezeRuns p r false cs

/-- Drop the maximal trailing run of characters satisfying `p`
(the right half of Python `strip`). -/
def dropTrail (p : Char → Bool) : Str → Str
  | [] => []
  | c :: cs =>
    if dropTrail p cs = [] then (if p c then [] else [c])
    else c :: dropTrail p cs

/-- Python `str.strip()`: drop leading and trailing whitespace. -/
def pyStrip (l : Str) : Str := dropTrail pyIsSpace (l.dropWhile pyIsSpace)

/-- Line 142-143 of the source: `normalize_space`. -/
def normalize_space (s : Str) : Str :=
  pyStrip (squeezeRuns isCollapsible ' ' false (pyReplaceCR s))

/-! ## Tag Extractor (`extract_tags`, line 145-159)

The `re` library is external; a run of the extractor is parameterized by
an `Engine` describing what `re.search(pat, text, re.IGNORECASE|re.MULTILINE)`
does on each pattern and text.
-/

/-- Outcome of `re.search(pat, text, ...)`: the pattern may fail to compile
(`re.error`, caught by the source at line 152), may find no match, or may
return a match object. -/
structure PyMatch where
  group0 : Str
  named : List (String × Option Str)
deriving DecidableEq

inductive SearchOutcome where
  | reError
  | noMatch
  | found (m : PyMatch)
deriving DecidableEq

abbrev Engine := Str → Str → SearchOutcome

/-- The only uncaught exception the extractor can raise:
`normalize_space(None)` fails with `AttributeError` because `None` has no
`replace` method. -/
inductive PyErr where
  | attributeError
deriving DecidableEq

/-- Line 156: `m.groupdict().get("value", m.group(0))`. If the pattern
defines a named group `value`, `groupdict()` contains the key `value`
(bound to `none` when the group did not participate in the match) and
`get` returns that binding; otherwise `get` falls back to the whole
matched span. -/
def matchValue (m : PyMatch) : Option Str :=
  match dlookup m.named "value" with
  | some v => v
  | none => some m.group0

/-- The inner loop of lines 149-158: try the patterns of one tag in order.
A compilation error is caught and skipped (line 152-154); on the first
match the extracted value is normalized (line 156-157) — unless the value
group is unbound, in which case `normalize_space(None)` raises. -/
def extractTag (e : Engine) (text : Str) : List Str → Except PyErr (Option Str)
  | [] => .ok none
  | pat :: rest =>
    match e pat text with
    | .reError => extractTag e text rest
    | .noMatch => extractTag e text rest
    | .found m =>
      match matchValue m with
      | some val => .ok (some (normalize_space val))
      | none => .error .attributeError

/-- The outer loop of lines 147-158, accumulating the `out` dict. -/
def extractTagsAux (e : Engine) (t : Str) :
    List (Str × List Str) → List (Str × Str) → Except PyErr (List (Str × Str))
  | [], out => .ok out
  | (tag, pats) :: rest, out =>
    match extractTag e t pats with
    | .error err => .error err
    | .ok none => extractTagsAux e t rest out
    | .ok (some v) => extractTagsAux e t rest (dinsert out tag v)

/-- Line 145-159 of the source: `extract_tags(text, tag_rules)`, with the
`re` library abstracted as `e`. -/
def extract_tags (e : Engine) (text : Str) (tag_rules : List (Str × List Str)) :
    Except PyErr (List (Str × Str)) :=
  extractTagsAux e (normalize_space text) tag_rules []

/-! ## Schema Mapper (`build_row`, line 161-188) -/

/-- The ASCII letters and digits kept by `re.sub(r"[^A-Za-z0-9]+", "_", col)`. -/
def isAsciiAlnum (c : Char) : Bool :=
  (decide ('A' ≤ c) && decide (c ≤ 'Z')) ||
  (decide ('a' ≤ c) && decide (c ≤ 'z')) ||
  (decide ('0' ≤ c) && decide (c ≤ '9'))

/-- ASCII case of Python `str.lower()` (the embedding lowers only the
ASCII range; no other letters occur in the claims). -/
def pyLower (c : Char) : Char :=
  if decide ('A' ≤ c) && decide (c ≤ 'Z') then Char.ofNat (c.toNat + 32) else c

/-- Line 165: `re.sub(r"[^A-Za-z0-9]+", "_", col).lower().strip("_")`. -/
def canonKey (col : Str) : Str :=
  dropTrail (fun c => c == '_')
    (((squeezeRuns (fun c => !isAsciiAlnum c) '_' false col).map pyLower).dropWhile
      (fun c => c == '_'))

/-- The fixed alias list of lines 171-181, verbatim. -/
def aliases : List (Str × List Str) :=
  [ (pyStr "project_name", [pyStr "project", pyStr "tender_name", pyStr "name_of_work"]),
    (pyStr "project_capacity_mw", [pyStr "capacity_mw", pyStr "capacity"]),
    (pyStr "storage_capacity_mwh", [pyStr "bess_mwh", pyStr "storage_mwh"]),
    (pyStr "bid_submission_deadline", [pyStr "submission_deadline", pyStr "bid_due_date"]),
    (pyStr "emd_amount_rs", [pyStr "emd", pyStr "earnest_money"]),
    (pyStr "pbg_percent_or_amount", [pyStr "pbg", pyStr "performance_bg"]),
    (pyStr "completion_time_months", [pyStr "completion_time", pyStr "time_for_completion"]),
    (pyStr "price_cap_rs_per_kwh", [pyStr "tariff_cap", pyStr "ceiling_tariff"]),
    (pyStr "interconnection_voltage_kv", [pyStr "grid_voltage_kv", pyStr "voltage_kv"]) ]

/-- The alias loop of lines 182-186: `filled` stays `""` unless some entry
has the derived `key` among its alternate spellings `aka` AND its
canonical `tag` is a key of `tag_values`. -/
def aliasFill (tag_values : List (Str × Str)) (key : Str) :
    List (Str × List Str) → Str
  | [] => []
  | (tag, aka) :: rest =>
    if key ∈ aka then
      match dlookup tag_values tag with
      | some v => v
      | none => aliasFill tag_values key rest
    else aliasFill tag_values key rest

/-- The body of the per-column loop of lines 163-187. -/
def rowCell (tag_values : List (Str × Str)) (col : Str) : Str :=
  match dlookup tag_values (canonKey col) with
  | some v => v
  | none => aliasFill tag_values (canonKey col) aliases

/-- Line 161-188 of the source: `build_row(columns, tag_values)`. -/
def build_row (columns : List Str) (tag_values : List (Str × Str)) : List Str :=
  columns.map (rowCell tag_values)

/-! ## Tabular sink glue (`ensure_workbook` line 190-206, `append_rows`
line 208-213)

An openpyxl workbook is modelled as an association list from sheet name
to its list of rows; `ws.max_row` is modelled as the row count. The file
system enters only through the function arguments: `prevOut` is whatever
workbook the output path currently holds (the source never reads it —
`wb.save(out_path)` at line 206 simply overwrites it), and `template` is
the workbook at the template path when one exists.
-/

abbrev Row := List Str

abbrev Wb := List (Str × List Row)

def sheetNames (wb : Wb) : List Str := wb.map Prod.fst

/-- Line 190-206 of the source: `ensure_workbook(out_path, template,
master_sheet, columns)` as a function from the prior file-system state to
the workbook left at `out_path`. -/
def ensure_workbook (prevOut : Option Wb) (template : Option Wb)
    (master_sheet : Str) (columns : Row) : Wb :=
  match template with
  | some t =>
    if master_sheet ∈ sheetNames t then
      t.map (fun sh =>
        if sh.1 = master_sheet ∧ sh.2.length < 1 then (sh.1, sh.2 ++ [columns]) else sh)
    else t ++ [(master_sheet, [columns])]
  | none => [(master_sheet, [columns])]

/-- Line 208-213 of the source: `append_rows(out_path, master_sheet, rows)`
as a function on the workbook currently stored at `out_path`. -/
def append_rows (wb : Wb) (master_sheet : Str) (rows : List Row) : Wb :=
  wb.map (fun sh => if sh.1 = master_sheet then (sh.1, sh.2 ++ rows) else sh)

/-! ## Schema loading (`load_columns`, line 116-120) -/

/-- Values of the parsed JSON schema file. -/
inductive Json where
  | null
  | bool (b : Bool)
  | num (n : Int)
  | str (s : Str)
  | arr (elems : List Json)
  | obj (fields : List (Str × Json))

/-- Line 116-120 of the source: `load_columns` on an already-parsed
top-level JSON object, returning the pair `(sheet, columns)`. -/
def load_columns (meta : List (Str × Json)) : Json × Json :=
  let columns := (dlookup meta (pyStr "columns")).getD (Json.arr [])
  let sheet := (dlookup meta (pyStr "detected_master_sheet")).getD (Json.str (pyStr "Master"))
  (sheet, columns)

/-- Proof-layer predicate: no two adjacent characters of the list both
satisfy `p` (the shape left behind by a run-squeezing substitution). -/
def noRunOf (p : Char → Bool) : Str → Bool
  | a :: b :: t => (!(p a && p b)) && noRunOf p (b :: t)
  | _ => true

/-! ## Rewrite equations for the run-squeezer and the trailing-strip -/

theorem squeezeRuns_nil (p : Char → Bool) (r : Char) (b : Bool) :
    squeezeRuns p r b [] = [] := rfl

theorem squeezeRuns_pos_false {p : Char → Bool} {c : Char} (r : Char) (cs : Str)
    (h : p c = true) :
    squeezeRuns p r false (c :: cs) = r :: squeezeRuns p r true cs := by
  simp [squeezeRuns, h]

theorem squeezeRuns_pos_true {p : Char → Bool} {c : Char} (r : Char) (cs : Str)
    (h : p c = true) :
    squeezeRuns p r true (c :: cs) = squeezeRuns p r true cs := by
  simp [squeezeRuns, h]

theorem squeezeRuns_neg {p : Char → Bool} {c : Char} (r : Char) (b : Bool) (cs : Str)
    (h : p c = false) :
    squeezeRuns p r b (c :: cs) = c :: squeezeRuns p r false cs := by
  cases b <;> simp [squeezeRuns, h]

theorem dropTrail_nil (p : Char → Bool) : dropTrail p [] = [] := rfl

theorem dropTrail_emp_pos {p : Char → Bool} {c : Char} {cs : Str}
    (hd : dropTrail p cs = []) (h : p c = true) : dropTrail p (c :: cs) = [] := by
  simp [dropTrail, hd, h]

theorem dropTrail_emp_neg {p : Char → Bool} {c : Char} {cs : Str}
    (hd : dropTrail p cs = []) (h : p c = false) : dropTrail p (c :: cs) = [c] := by
  simp [dropTrail, hd, h]

theorem dropTrail_ne {p : Char → Bool} {c : Char} {cs : Str}
    (hd : dropTrail p cs ≠ []) : dropTrail p (c :: cs) = c :: dropTrail p cs := by
  simp [dropTrail, hd]

/-! ## Lemmas about the normalizer -/

theorem mem_squeezeRuns {p : Char → Bool} {r : Char} {b : Bool} {l : Str} {c : Char}
    (h : c ∈ squeezeRuns p r b l) : c = r ∨ (c ∈ l ∧ p c = false) := by
  induction l generalizing b with
  | nil => simp [squeezeRuns] at h
  | cons a t ih =>
    cases hpa : p a with
    | true =>
      cases b with
      | true =>
        rw [squeezeRuns_pos_true r t hpa] at h
        rcases ih h with h' | ⟨hm, hp⟩
        · exact Or.inl h'
        · exact Or.inr ⟨List.mem_cons_of_mem _ hm, hp⟩
      | false =>
        rw [squeezeRuns_pos_false r t hpa] at h
        rcases List.mem_cons.mp h with h' | h'
        · exact Or.inl h'
        · rcases ih h' with h'' | ⟨hm, hp⟩
          · exact Or.inl h''
          · exact Or.inr ⟨List.mem_cons_of_mem _ hm, hp⟩
    | false =>
      rw [squeezeRuns_neg r b t hpa] at h
      rcases List.mem_cons.mp h with h' | h'
      · exact Or.inr ⟨h' ▸ List.mem_cons_self a t, h' ▸ hpa⟩
      · rcases ih h' with h'' | ⟨hm, hp⟩
        · exact Or.inl h''
        · exact Or.inr ⟨List.mem_cons_of_mem _ hm, hp⟩

theorem squeezeRuns_true_head {p : Char → Bool} {r : Char} {l : Str} {x : Char} {xs : Str}
    (h : squeezeRuns p r true l = x :: xs) : p x = false := by
  induction l generalizing x xs with
  | nil => simp [squeezeRuns] at h
  | cons a t ih =>
    cases hpa : p a with
    | true => exact ih (by rwa [squeezeRuns_pos_true r t hpa] at h)
    | false =>
      rw [squeezeRuns_neg r true t hpa] at h
      rw [← (List.cons.injEq _ _ _ _ ▸ h : a = x ∧ _).1]
      exact hpa

theorem noRunOf_tail {p : Char → Bool} {a : Char} {t : Str}
    (h : noRunOf p (a :: t) = true) : noRunOf p t = true := by
  cases t with
  | nil => rfl
  | cons b t' => exact (Bool.and_eq_true_iff.mp h).2

theorem noRunOf_squeezeRuns (p : Char → Bool) (r : Char) (b : Bool) (l : Str) :
    noRunOf p (squeezeRuns p r b l) = true := by
  induction l generalizing b with
  | nil => rfl
  | cons a t ih =>
    cases hpa : p a with
    | true =>
      cases b with
      | true => rw [squeezeRuns_pos_true r t hpa]; exact ih true
      | false =>
        rw [squeezeRuns_pos_false r t hpa]
        cases hs : squeezeRuns p r true t with
        | nil => rfl
        | cons x xs =>
          have hx : p x = false := squeezeRuns_true_head hs
          have hrest := ih true
          rw [hs] at hrest
          simp [noRunOf, hx, hrest]
    | false =>
      rw [squeezeRuns_neg r b t hpa]
      cases hs : squeezeRuns p r false t with
      | nil => rfl
      | cons x xs =>
        have hrest := ih false
        rw [hs] at hrest
        simp [noRunOf, hpa, hrest]

theorem squeezeRuns_fix {p : Char → Bool} {r : Char} {l : Str}
    (honly : ∀ c ∈ l, p c = true → c = r) (hrun : noRunOf p l = true) :
    squeezeRuns p r false l = l := by
  induction l with
  | nil => rfl
  | cons a t ih =>
    have honlyt : ∀ c ∈ t, p c = true → c = r :=
      fun c hc hp => honly c (List.mem_cons_of_mem _ hc) hp
    have iht : squeezeRuns p r false t = t := ih honlyt (noRunOf_tail hrun)
    cases hpa : p a with
    | true =>
      have ha : a = r := honly a (List.mem_cons_self a t) hpa
      rw [squeezeRuns_pos_false r t hpa, ha]
      cases t with
      | nil => rfl
      | cons b t' =>
        have hb : p b = false := by
          have hnr := (Bool.and_eq_true_iff.mp hrun).1
          cases hpb : p b with
          | false => rfl
          | true => rw [hpa, hpb] at hnr; simp at hnr
        rw [squeezeRuns_neg r true t' hb]
        rw [squeezeRuns_neg r false t' hb] at iht
        rw [iht]
    | false =>
      rw [squeezeRuns_neg r false t hpa, iht]

theorem dropWhile_head_false {p : Char → Bool} {l : Str} {x : Char} {xs : Str}
    (h : l.dropWhile p = x :: xs) : p x = false := by
  induction l with
  | nil => simp [List.dropWhile] at h
  | cons a t ih =>
    cases hpa : p a with
    | true => exact ih (by rwa [List.dropWhile_cons, if_pos hpa] at h)
    | false =>
      rw [List.dropWhile_cons, if_neg (by simp [hpa])] at h
      rw [← (List.cons.injEq _ _ _ _ ▸ h : a = x ∧ _).1]
      exact hpa

theorem mem_dropWhile {p : Char → Bool} {l : Str} {c : Char}
    (h : c ∈ l.dropWhile p) : c ∈ l := by
  induction l with
  | nil => simpa [List.dropWhile] using h
  | cons a t ih =>
    cases hpa : p a with
    | true =>
      rw [List.dropWhile_cons, if_pos hpa] at h
      exact List.mem_cons_of_mem _ (ih h)
    | false =>
      rwa [List.dropWhile_cons, if_neg (by simp [hpa])] at h

theorem mem_dropTrail {p : Char → Bool} {l : Str} {c : Char}
    (h : c ∈ dropTrail p l) : c ∈ l := by
  induction l with
  | nil => simpa [dropTrail] using h
  | cons a t ih =>
    by_cases hd : dropTrail p t = []
    · cases hpa : p a with
      | true => rw [dropTrail_emp_pos hd hpa] at h; simp at h
      | false =>
        rw [dropTrail_emp_neg hd hpa] at h
        simp only [List.mem_singleton] at h
        simp [h]
    · rw [dropTrail_ne hd] at h
      rcases List.mem_cons.mp h with h' | h'
      · simp [h']
      · exact List.mem_cons_of_mem _ (ih h')

theorem dropTrail_head {p : Char → Bool} {l : Str} {x : Char} {xs : Str}
    (h : dropTrail p l = x :: xs) : ∃ t, l = x :: t := by
  cases l with
  | nil => simp [dropTrail] at h
  | cons a t =>
    by_cases hd : dropTrail p t = []
    · cases hpa : p a with
      | true => rw [dropTrail_emp_pos hd hpa] at h; exact absurd h (by simp)
      | false =>
        rw [dropTrail_emp_neg hd hpa] at h
        exact ⟨t, by rw [(List.cons.injEq _ _ _ _ ▸ h : a = x ∧ _).1]⟩
    · rw [dropTrail_ne hd] at h
      exact ⟨t, by rw [(List.cons.injEq _ _ _ _ ▸ h : a = x ∧ _).1]⟩

theorem noRunOf_dropWhile {p q : Char → Bool} {l : Str}
    (h : noRunOf p l = true) : noRunOf p (l.dropWhile q) = true := by
  induction l with
  | nil => rfl
  | cons a t ih =>
    cases hqa : q a with
    | true =>
      rw [List.dropWhile_cons, if_pos hqa]
      exact ih (noRunOf_tail h)
    | false =>
      rwa [List.dropWhile_cons, if_neg (by simp [hqa])]

theorem noRunOf_dropTrail {p q : Char → Bool} {l : Str}
    (h : noRunOf p l = true) : noRunOf p (dropTrail q l) = true := by
  induction l with
  | nil => rfl
  | cons a t ih =>
    by_cases hd : dropTrail q t = []
    · cases hqa : q a with
      | true => rw [dropTrail_emp_pos hd hqa]; rfl
      | false => rw [dropTrail_emp_neg hd hqa]; rfl
    · rw [dropTrail_ne hd]
      cases hdt : dropTrail q t with
      | nil => exact absurd hdt hd
      | cons x xs =>
        obtain ⟨t', ht'⟩ := dropTrail_head hdt
        have hpair : (!(p a && p x)) = true := by
          subst ht'
          exact (Bool.and_eq_true_iff.mp (by simpa [noRunOf] using h)).1
        have htail : noRunOf p (x :: xs) = true := by
          rw [← hdt]; exact ih (noRunOf_tail h)
        simp [noRunOf, hpair, htail]

theorem dropTrail_idem (p : Char → Bool) (l : Str) :
    dropTrail p (dropTrail p l) = dropTrail p l := by
  induction l with
  | nil => rfl
  | cons a t ih =>
    by_cases hd : dropTrail p t = []
    · cases hpa : p a with
      | true => rw [dropTrail_emp_pos hd hpa]; rfl
      | false =>
        rw [dropTrail_emp_neg hd hpa]
        exact dropTrail_emp_neg (dropTrail_nil p) hpa
    · rw [dropTrail_ne hd, dropTrail_ne (by rw [ih]; exact hd), ih]

theorem dropWhile_dropTrail_dropWhile (q : Char → Bool) (l : Str) :
    (dropTrail q (l.dropWhile q)).dropWhile q = dropTrail q (l.dropWhile q) := by
  cases hu : l.dropWhile q with
  | nil => simp [dropTrail]
  | cons c t =>
    have hc : q c = false := dropWhile_head_false hu
    cases hdt : dropTrail q (c :: t) with
    | nil => simp
    | cons x xs =>
      obtain ⟨t', ht'⟩ := dropTrail_head hdt
      have hx : x = c := by injection ht' with h1 _; exact h1.symm
      rw [List.dropWhile_cons, if_neg (by simp [hx, hc])]

theorem pyReplaceCR_fix {l : Str} (h : ∀ c ∈ l, c ≠ '\r') : pyReplaceCR l = l := by
  induction l with
  | nil => rfl
  | cons a t ih =>
    have ha : a ≠ '\r' := h a (List.mem_cons_self a t)
    have ht : pyReplaceCR t = t := ih (fun c hc => h c (List.mem_cons_of_mem _ hc))
    simp only [pyReplaceCR, List.map_cons] at ht ⊢
    rw [if_neg ha, ht]

theorem mem_pyReplaceCR_ne_cr {l : Str} {c : Char} (h : c ∈ pyReplaceCR l) : c ≠ '\r' := by
  unfold pyReplaceCR at h
  rcases List.mem_map.mp h with ⟨a, _, ha⟩
  subst ha
  by_cases har : a = '\r'
  · rw [if_pos har]; decide
  · rw [if_neg har]; exact har

/-- The normalizer is idempotent; the central helper behind claims about
fixpoints of `normalize_space`. -/
theorem normalize_space_idem (s : Str) :
    normalize_space (normalize_space s) = normalize_space s := by
  have hmem : ∀ c ∈ normalize_space s, c = ' ' ∨ (c ∈ pyReplaceCR s ∧ isCollapsible c = false) := by
    intro c hc
    exact mem_squeezeRuns (mem_dropWhile (mem_dropTrail hc))
  have hnocr : ∀ c ∈ normalize_space s, c ≠ '\r' := by
    intro c hc
    rcases hmem c hc with h' | ⟨hm, _⟩
    · rw [h']; decide
    · exact mem_pyReplaceCR_ne_cr hm
  have honly : ∀ c ∈ normalize_space s, isCollapsible c = true → c = ' ' := by
    intro c hc hcol
    rcases hmem c hc with h' | ⟨_, hnc⟩
    · exact h'
    · rw [hcol] at hnc; cases hnc
  have hrun : noRunOf isCollapsible (normalize_space s) = true := by
    unfold normalize_space pyStrip
    exact noRunOf_dropTrail (noRunOf_dropWhile (noRunOf_squeezeRuns _ _ _ _))
  conv_lhs => rw [normalize_space]
  rw [pyReplaceCR_fix hnocr, squeezeRuns_fix honly hrun]
  show pyStrip (normalize_space s) = normalize_space s
  unfold normalize_space pyStrip
  rw [dropWhile_dropTrail_dropWhile, dropTrail_idem]

end RenewableAutofill

namespace RenewableAutofill

/-! ## Lemmas about the extractor and the dict operations -/

theorem dlookup_cons {κ α : Type} [DecidableEq κ] (x : κ × α) (rest : List (κ × α)) (key : κ) :
    dlookup (x :: rest) key = if x.1 = key then some x.2 else dlookup rest key := by
  obtain ⟨k, v⟩ := x
  rfl

theorem dlookup_dinsert_ne {κ α : Type} [DecidableEq κ] {l : List (κ × α)} {k key : κ} {v : α}
    (h : k ≠ key) : dlookup (dinsert l k v) key = dlookup l key := by
  induction l with
  | nil => simp [dinsert, dlookup, h]
  | cons kv rest ih =>
    obtain ⟨k', v'⟩ := kv
    by_cases hk : k' = k
    · subst hk
      simp only [dinsert, if_pos rfl]
      simp [dlookup, h]
    · simp only [dinsert, if_neg hk]
      by_cases hkey : k' = key
      · simp [dlookup, hkey]
      · simp [dlookup, hkey, ih]

theorem mem_dinsert {κ α : Type} [DecidableEq κ] {l : List (κ × α)} {k : κ} {v : α}
    {entry : κ × α} (h : entry ∈ dinsert l k v) : entry ∈ l ∨ entry = (k, v) := by
  induction l with
  | nil =>
    rw [dinsert] at h
    simp only [List.mem_singleton] at h
    exact Or.inr h
  | cons kv rest ih =>
    obtain ⟨k', v'⟩ := kv
    by_cases hk : k' = k
    · subst hk
      rw [dinsert, if_pos rfl] at h
      rcases List.mem_cons.mp h with h' | h'
      · exact Or.inr h'
      · exact Or.inl (List.mem_cons_of_mem _ h')
    · rw [dinsert, if_neg hk] at h
      rcases List.mem_cons.mp h with h' | h'
      · exact Or.inl (h' ▸ List.mem_cons_self _ _)
      · rcases ih h' with h'' | h''
        · exact Or.inl (List.mem_cons_of_mem _ h'')
        · exact Or.inr h''

/-- A pattern list none of whose patterns compiles-and-matches produces no
value for its tag. -/
theorem extractTag_all_fail {e : Engine} {t : Str} {pats : List Str}
    (h : ∀ p ∈ pats, e p t = .reError ∨ e p t = .noMatch) :
    extractTag e t pats = .ok none := by
  induction pats with
  | nil => rfl
  | cons pat rest ih =>
    have hrest : extractTag e t rest = .ok none :=
      ih (fun p hp => h p (List.mem_cons_of_mem _ hp))
    rcases h pat (List.mem_cons_self pat rest) with h' | h' <;>
      simp [extractTag, h', hrest]

/-- Every value delivered by the per-tag loop is the normalization of
some raw extracted string. -/
theorem extractTag_ok_some {e : Engine} {t : Str} {pats : List Str} {v : Str}
    (h : extractTag e t pats = .ok (some v)) : ∃ w, v = normalize_space w := by
  induction pats with
  | nil => simp [extractTag] at h
  | cons pat rest ih =>
    rw [extractTag] at h
    cases he : e pat t with
    | reError => simp only [he] at h; exact ih h
    | noMatch => simp only [he] at h; exact ih h
    | found m =>
      simp only [he] at h
      cases hv : matchValue m with
      | some val =>
        simp only [hv, Except.ok.injEq, Option.some.injEq] at h
        exact ⟨val, h.symm⟩
      | none => simp only [hv] at h; cases h

/-- Accumulator invariant for claim C9: every stored value is a fixpoint
of the normalizer. -/
theorem extractTagsAux_values_normalized {e : Engine} {t : Str} :
    ∀ (rules : List (Str × List Str)) (acc out : List (Str × Str)),
      (∀ entry ∈ acc, normalize_space entry.2 = entry.2) →
      extractTagsAux e t rules acc = .ok out →
      ∀ entry ∈ out, normalize_space entry.2 = entry.2 := by
  intro rules
  induction rules with
  | nil =>
    intro acc out hacc hok
    rw [extractTagsAux] at hok
    simp only [Except.ok.injEq] at hok
    exact hok ▸ hacc
  | cons tp rest ih =>
    obtain ⟨tag, pats⟩ := tp
    intro acc out hacc hok
    rw [extractTagsAux] at hok
    cases het : extractTag e t pats with
    | error err => simp only [het] at hok; cases hok
    | ok o =>
      cases o with
      | none => simp only [het] at hok; exact ih acc out hacc hok
      | some v =>
        simp only [het] at hok
        refine ih (dinsert acc tag v) out ?_ hok
        intro entry hentry
        rcases mem_dinsert hentry with h' | h'
        · exact hacc entry h'
        · obtain ⟨w, hw⟩ := extractTag_ok_some het
          rw [h']
          simpa using hw ▸ normalize_space_idem w

/-- Accumulator invariant for claim C7: a tag whose patterns all fail is
bound in the output exactly as in the accumulator. -/
theorem extractTagsAux_lookup_of_fail {e : Engine} {t : Str} {key : Str} :
    ∀ (rules : List (Str × List Str)) (acc out : List (Str × Str)),
      (∀ pats, (key, pats) ∈ rules → ∀ p ∈ pats, e p t = .reError ∨ e p t = .noMatch) →
      extractTagsAux e t rules acc = .ok out →
      dlookup out key = dlookup acc key := by
  intro rules
  induction rules with
  | nil =>
    intro acc out _ hok
    rw [extractTagsAux] at hok
    simp only [Except.ok.injEq] at hok
    rw [hok]
  | cons tp rest ih =>
    obtain ⟨tag, pats⟩ := tp
    intro acc out hfail hok
    rw [extractTagsAux] at hok
    have hfailrest : ∀ pats', (key, pats') ∈ rest → ∀ p ∈ pats', e p t = .reError ∨ e p t = .noMatch :=
      fun pats' hm => hfail pats' (List.mem_cons_of_mem _ hm)
    cases het : extractTag e t pats with
    | error err => simp only [het] at hok; cases hok
    | ok o =>
      cases o with
      | none => simp only [het] at hok; exact ih acc out hfailrest hok
      | some v =>
        simp only [het] at hok
        have htag : tag ≠ key := by
          intro hkey
          subst hkey
          have := extractTag_all_fail (hfail pats (List.mem_cons_self _ _))
          rw [this] at het
          cases het
        rw [ih (dinsert acc tag v) out hfailrest hok, dlookup_dinsert_ne htag]


/-! ## The claims -/

/-- Claim C1, counterexample: on schema `["Storage Capacity (MWh)"]` and
extracted tags `{"bess_mwh": "50"}` the code does NOT return `["50"]`.
The derived key is `storage_capacity_mwh`; the alias loop (line 183-186)
fires only when the derived key occurs in an entry's alternate list `aka`
and the entry's canonical tag is a key of the tags — here
`storage_capacity_mwh` is the canonical tag of its entry, not an
alternate, so nothing fires and the cell stays blank. -/
theorem C1_counterexample :
    build_row [pyStr "Storage Capacity (MWh)"] [(pyStr "bess_mwh", pyStr "50")]
      ≠ [pyStr "50"] := by decide

/-- Claim C1, amended: alias resolution maps an alternate-spelling derived
key to the value stored under the entry's canonical tag, not the other way
round. For schema `["Storage Capacity (MWh)"]` and tags
`{"bess_mwh": "50"}` the row is `[""]`; the alias fires in the mirrored
situation, schema `["BESS (MWh)"]` with tags
`{"storage_capacity_mwh": "50"}`, giving `["50"]`. -/
theorem C1_amended_alias_direction :
    build_row [pyStr "Storage Capacity (MWh)"] [(pyStr "bess_mwh", pyStr "50")]
      = [pyStr ""] ∧
    build_row [pyStr "BESS (MWh)"] [(pyStr "storage_capacity_mwh", pyStr "50")]
      = [pyStr "50"] :=
  ⟨by decide, by decide⟩

/-- Claim C2, counterexample: `ensure_workbook` is destructive on the
existing output workbook. With no template, a prior output whose `Master`
sheet holds a header and a data row is replaced by a fresh workbook with
only the header: the prior data row `["old"]` is gone. -/
theorem C2_counterexample :
    dlookup [(pyStr "Master", [[pyStr "h"], [pyStr "old"]])] (pyStr "Master")
      = some [[pyStr "h"], [pyStr "old"]] ∧
    ensure_workbook (some [(pyStr "Master", [[pyStr "h"], [pyStr "old"]])]) none
      (pyStr "Master") [pyStr "h"]
      = [(pyStr "Master", [[pyStr "h"]])] :=
  ⟨by decide, by decide⟩

/-- Claim C2, amended: `ensure_workbook` rebuilds the output from the
template (or from scratch), ignoring whatever the output path held:
without a template the result is exactly a fresh sheet with only the
header row, whatever `prevOut` was; with a template whose target sheet
exists and is nonempty the result is the template unchanged; and
`append_rows` does preserve existing content, appending after it. -/
theorem C2_amended_ensure_rebuilds_and_append_preserves :
    (∀ (prevOut : Option Wb) (s : Str) (cols : Row),
      ensure_workbook prevOut none s cols = [(s, [cols])]) ∧
    (∀ (prevOut : Option Wb) (t : Wb) (s : Str) (cols : Row),
      s ∈ sheetNames t → (∀ sh ∈ t, sh.1 = s → sh.2 ≠ []) →
      ensure_workbook prevOut (some t) s cols = t) ∧
    (∀ (wb : Wb) (s : Str) (rs : List Row) (old : List Row),
      dlookup wb s = some old →
      dlookup (append_rows wb s rs) s = some (old ++ rs)) := by
  refine ⟨fun prevOut s cols => rfl, ?_, ?_⟩
  · intro prevOut t s cols hmem hne
    rw [ensure_workbook, if_pos hmem]
    have hid : ∀ sh ∈ t,
        (if sh.1 = s ∧ sh.2.length < 1 then (sh.1, sh.2 ++ [cols]) else sh) = sh := by
      intro sh hsh
      rw [if_neg]
      rintro ⟨h1, h2⟩
      exact hne sh hsh h1 (List.length_eq_zero.mp (Nat.lt_one_iff.mp h2))
    calc t.map (fun sh => if sh.1 = s ∧ sh.2.length < 1 then (sh.1, sh.2 ++ [cols]) else sh)
        = t.map id := List.map_congr_left hid
      _ = t := List.map_id t
  · intro wb s rs
    induction wb with
    | nil => intro old h; simp [dlookup] at h
    | cons sh rest ih =>
      intro old h
      obtain ⟨k, v⟩ := sh
      rw [dlookup] at h
      by_cases hk : k = s
      · rw [if_pos hk] at h
        simp only [Option.some.injEq] at h
        subst hk
        subst h
        simp only [append_rows, List.map_cons, dlookup_cons]
        simp
      · rw [if_neg hk] at h
        have hrec := ih old h
        rw [append_rows] at hrec ⊢
        simp only [List.map_cons]
        rw [if_neg (show ¬((k, v).1 = s) from hk), dlookup, if_neg hk]
        exact hrec

/-- Witness for the amended C2 at concrete workbooks. -/
theorem C2_witness :
    ensure_workbook none none (pyStr "M") [pyStr "h"] = [(pyStr "M", [[pyStr "h"]])] ∧
    ensure_workbook none (some [(pyStr "M", [[pyStr "h"]])]) (pyStr "M") [pyStr "c"]
      = [(pyStr "M", [[pyStr "h"]])] ∧
    dlookup (append_rows [(pyStr "M", [[pyStr "h"]])] (pyStr "M") [[pyStr "r"]]) (pyStr "M")
      = some [[pyStr "h"], [pyStr "r"]] :=
  ⟨C2_amended_ensure_rebuilds_and_append_preserves.1 none (pyStr "M") [pyStr "h"],
   C2_amended_ensure_rebuilds_and_append_preserves.2.1 none [(pyStr "M", [[pyStr "h"]])]
     (pyStr "M") [pyStr "c"] (by decide) (by decide),
   C2_amended_ensure_rebuilds_and_append_preserves.2.2 [(pyStr "M", [[pyStr "h"]])]
     (pyStr "M") [[pyStr "r"]] [[pyStr "h"]] (by decide)⟩

/-- Claim C3: the extractor is NOT total. The well-formed pattern
`a(?P<value>b)?` matched against the text `a` yields a match whose
`groupdict()` binds `value` to `None` (the optional group did not
participate); `groupdict().get("value", m.group(0))` then returns `None`,
and `normalize_space(None)` raises an uncaught `AttributeError`, so
`extract_tags` fails as a whole on a legitimate rule set. The engine
below records exactly what `re.search` does on that pattern and text. -/
theorem C3_crash_on_unbound_value_group :
    extract_tags
      (fun pat text =>
        if pat = pyStr "a(?P<value>b)?" ∧ text = pyStr "a" then
          .found ⟨pyStr "a", [("value", none)]⟩
        else .noMatch)
      (pyStr "a") [(pyStr "emd_amount_rs", [pyStr "a(?P<value>b)?"])]
      = .error .attributeError := rfl

/-- Claim C4: first-match-wins. If P1 matches the normalized text and
produces a value (named `value` capture if bound, else the whole span),
the extracted binding for the tag is P1's normalized value, regardless of
what P2 would have produced. -/
theorem C4_first_match_wins (e : Engine) (T P1 P2 tag : Str) (m1 m2 : PyMatch) (v1 : Str)
    (h1 : e P1 (normalize_space T) = .found m1)
    (h2 : e P2 (normalize_space T) = .found m2)
    (hv : matchValue m1 = some v1) :
    extract_tags e T [(tag, [P1, P2])] = .ok [(tag, normalize_space v1)] := by
  simp [extract_tags, extractTagsAux, extractTag, h1, hv, dinsert]

/-- Witness for C4: patterns `a` and `ab` both match text `ab`; the
extracted value is the one produced by `a`. -/
theorem C4_witness :
    extract_tags
      (fun pat _ => if pat = pyStr "a" then .found ⟨pyStr "a", []⟩
        else .found ⟨pyStr "ab", []⟩)
      (pyStr "ab") [(pyStr "t", [pyStr "a", pyStr "ab"])]
      = .ok [(pyStr "t", pyStr "a")] :=
  C4_first_match_wins _ (pyStr "ab") (pyStr "a") (pyStr "ab") (pyStr "t")
    ⟨pyStr "a", []⟩ ⟨pyStr "ab", []⟩ (pyStr "a") (by decide) (by decide) rfl

/-- Claim C5: the Text Normalizer is idempotent. -/
theorem C5_normalize_idempotent (s : Str) :
    normalize_space (normalize_space s) = normalize_space s :=
  normalize_space_idem s

/-- Claim C6: `build_row` returns one cell per schema column, in schema
order, whatever the extracted tags are — the row width always equals the
schema width. -/
theorem C6_row_width (columns : List Str) (tag_values : List (Str × Str)) :
    (build_row columns tag_values).length = columns.length := by
  simp [build_row]

/-- Claim C7: absence on no-match. If every pattern of a tag either fails
to compile or finds no match in the normalized text, the tag is absent
from the returned mapping. -/
theorem C7_absent_on_no_match (e : Engine) (text : Str) (rules : List (Str × List Str))
    (tag : Str) (out : List (Str × Str))
    (hfail : ∀ pats, (tag, pats) ∈ rules → ∀ p ∈ pats,
      e p (normalize_space text) = .reError ∨ e p (normalize_space text) = .noMatch)
    (hok : extract_tags e text rules = .ok out) :
    dlookup out tag = none := by
  unfold extract_tags at hok
  have h := extractTagsAux_lookup_of_fail rules [] out hfail hok
  rw [h]
  rfl

/-- Witness for C7 with a one-tag rule set whose only pattern finds
nothing. -/
theorem C7_witness :
    dlookup ([] : List (Str × Str)) (pyStr "x") = none :=
  C7_absent_on_no_match (fun _ _ => .noMatch) (pyStr "doc text")
    [(pyStr "x", [pyStr "p"])] (pyStr "x") []
    (by
      intro pats hp p hpp
      right
      rfl)
    rfl

/-- Claim C8: the direct canonical key takes precedence. When the derived
key of a schema column is itself bound in the tags, that binding is the
cell value; the alias table is not consulted. -/
theorem C8_direct_key_precedence (columns : List Str) (tag_values : List (Str × Str))
    (i : Nat) (hi : i < columns.length) (v : Str)
    (hv : dlookup tag_values (canonKey columns[i]) = some v) :
    (build_row columns tag_values)[i]? = some v := by
  rw [build_row, List.getElem?_map, List.getElem?_eq_getElem hi]
  simp [rowCell, hv]

/-- Witness for C8: column `Capacity` derives key `capacity`, which is
both bound directly (to `100`) and alias-resolvable (being an alternate of
`project_capacity_mw`, bound to `999`); the direct binding wins. -/
theorem C8_witness :
    (build_row [pyStr "Capacity"]
      [(pyStr "capacity", pyStr "100"), (pyStr "project_capacity_mw", pyStr "999")])[0]?
      = some (pyStr "100") :=
  C8_direct_key_precedence [pyStr "Capacity"]
    [(pyStr "capacity", pyStr "100"), (pyStr "project_capacity_mw", pyStr "999")]
    0 (by decide) (pyStr "100") (by decide)

/-- Claim C9: every value stored by the extractor is a fixpoint of the
normalizer (values are stored as `normalize_space` of the raw capture, and
the normalizer is idempotent). -/
theorem C9_values_are_normalizer_fixpoints (e : Engine) (text : Str)
    (rules : List (Str × List Str)) (out : List (Str × Str)) (tag v : Str)
    (hok : extract_tags e text rules = .ok out) (hmem : (tag, v) ∈ out) :
    normalize_space v = v := by
  unfold extract_tags at hok
  exact extractTagsAux_values_normalized rules [] out
    (by intro entry h; cases h) hok (tag, v) hmem

/-- Witness for C9: an engine whose match span is `" a"` stores the value
`"a"`, a normalizer fixpoint. -/
theorem C9_witness : normalize_space (pyStr "a") = pyStr "a" :=
  C9_values_are_normalizer_fixpoints (fun _ _ => .found ⟨pyStr " a", []⟩) (pyStr "x")
    [(pyStr "t", [pyStr "p"])] [(pyStr "t", pyStr "a")] (pyStr "t") (pyStr "a")
    rfl (by decide)

/-- Claim C10: when the parsed schema object lacks the `columns` key the
column list silently defaults to the empty array, and when it lacks the
`detected_master_sheet` key the sheet name silently defaults to `Master`;
`load_columns` never fails on such input. -/
theorem C10_load_columns_defaults (meta : List (Str × Json)) :
    (dlookup meta (pyStr "columns") = none → (load_columns meta).2 = Json.arr []) ∧
    (dlookup meta (pyStr "detected_master_sheet") = none →
      (load_columns meta).1 = Json.str (pyStr "Master")) := by
  constructor
  · intro h
    simp [load_columns, h]
  · intro h
    simp [load_columns, h]

/-- Witness for C10 at the empty object: both defaults are produced. -/
theorem C10_witness :
    (load_columns ([] : List (Str × Json))).1 = Json.str (pyStr "Master") ∧
    (load_columns ([] : List (Str × Json))).2 = Json.arr [] :=
  ⟨(C10_load_columns_defaults []).2 rfl, (C10_load_columns_defaults []).1 rfl⟩

end RenewableAutofill
